import Mathlib

/-!
Verification of the MetaboVerse substructure store and catalog builder
(`metaboverse/databases.py` and `mfrontier_funcs.py`).

The development shallowly embeds the data model and the operations of the
source: the `substructures` and `compounds` tables become lists of records,
the SQL queries become list filters/projections, masses become rationals
(`round` is Python's round-half-to-even), the RDKit molecule becomes an
indexed atom/bond list, the networkx graph an adjacency-ordered edge list,
and Python dicts insertion-ordered association lists.
-/

namespace Metaboverse

/-- Floor of a rational, computed on its reduced fraction. -/
def ratFloor (q : ℚ) : ℤ :=
  Int.fdiv q.num (q.den : ℤ)

/-- Python `round` to an integer: round half to even (banker's rounding). -/
def roundHalfToEven (q : ℚ) : ℤ :=
  let f : ℤ := ratFloor q
  let r : ℚ := q - (f : ℚ)
  if r < 1/2 then f
  else if 1/2 < r then f + 1
  else if f % 2 = 0 then f else f + 1

/-- Python `round(q, n)`: round to `n` decimal places, half to even. -/
def pyRound (q : ℚ) (n : ℕ) : ℚ :=
  (roundHalfToEven (q * 10 ^ n) : ℚ) / 10 ^ n

/-- The five mass precision tiers of the `substructures` schema: the suffix of
the `exact_mass__*` column the tier value is stored under. -/
inductive Tier where
  | t1 | t0_1 | t0_01 | t0_001 | t0_0001
  deriving DecidableEq, Repr

/-- A row of the `substructures` table (`create_compound_database`). The
opaque pickled `lib` payload is modelled by an identifier. -/
structure SubRow where
  smiles : String
  heavy_atoms : ℕ
  length : ℕ
  exact_mass__1 : ℚ
  exact_mass__0_1 : ℚ
  exact_mass__0_01 : ℚ
  exact_mass__0_001 : ℚ
  exact_mass__0_0001 : ℚ
  exact_mass : ℚ
  count : ℕ
  C : ℕ
  H : ℕ
  N : ℕ
  O : ℕ
  P : ℕ
  S : ℕ
  valence : ℕ
  valence_atoms : String
  atoms_available : ℕ
  lib : ℕ
  deriving DecidableEq, Repr

/-- The `exact_mass__{accuracy}` column selected by the `accuracy` argument
of `select_mass_values` / `select_ecs`. -/
def tierColumn : Tier → SubRow → ℚ
  | Tier.t1, r => r.exact_mass__1
  | Tier.t0_1, r => r.exact_mass__0_1
  | Tier.t0_01, r => r.exact_mass__0_01
  | Tier.t0_001, r => r.exact_mass__0_001
  | Tier.t0_0001, r => r.exact_mass__0_0001

/-- The `(C, H, N, O, P, S)` element-composition tuple of a substructure row. -/
def ecOf (r : SubRow) : ℕ × ℕ × ℕ × ℕ × ℕ × ℕ :=
  (r.C, r.H, r.N, r.O, r.P, r.S)

/-- A row of the `compounds` table. -/
structure CpdRow where
  hmdbid : String
  exact_mass : ℚ
  formula : String
  C : ℕ
  H : ℕ
  N : ℕ
  O : ℕ
  P : ℕ
  S : ℕ
  smiles : String
  smiles_rdkit : String
  smiles_rdkit_kek : String
  deriving DecidableEq, Repr

/-- `SubstructureDb.select_compounds`: with a non-empty id list the SQL built
is `WHERE HMDBID in ('<", ".join(cpds)>')` — the ids are joined with `", "`
INSIDE one pair of quotes, so the IN list holds the single string
`String.intercalate ", " cpds`; with an empty list all rows are selected. -/
def select_compounds (table : List CpdRow) (cpds : List String) : List CpdRow :=
  if 0 < cpds.length then
    (table.filter (fun r => r.hmdbid = String.intercalate ", " cpds)).dedup
  else
    table.dedup

/-- `SubstructureDb.select_mass_values`: distinct values of the requested mass
tier over rows with `valence <= max_valence` and `heavy_atoms` in the given
set; a non-empty `masses` list adds `AND exact_mass__1 in (masses)` (the
filter is on the `exact_mass__1` column whatever the accuracy); the result
list is sorted ascending. -/
def mvPass (heavy_atoms : List ℕ) (max_valence : ℕ) (masses : List ℚ) (r : SubRow) : Bool :=
  decide (r.valence ≤ max_valence) && decide (r.heavy_atoms ∈ heavy_atoms) &&
    (if masses.isEmpty then true else decide (r.exact_mass__1 ∈ masses))

def select_mass_values (table : List SubRow) (accuracy : Tier) (heavy_atoms : List ℕ)
    (max_valence : ℕ) (masses : List ℚ) : List ℚ :=
  List.insertionSort (fun a b => a ≤ b)
    (((table.filter (mvPass heavy_atoms max_valence masses)).map (tierColumn accuracy)).dedup)

/-- `SubstructureDb.select_ecs`: distinct `(C, H, N, O, P, S)` tuples of rows
whose `heavy_atoms` is in the given set and whose requested tier column
equals `exact_mass` (when `ppm` is absent), or lies strictly inside the
window `exact_mass ± (exact_mass / 1000000) * ppm` (when present). -/
def ecsPass (exact_mass : ℚ) (heavy_atoms : List ℕ) (accuracy : Tier) (ppm : Option ℚ)
    (r : SubRow) : Bool :=
  decide (r.heavy_atoms ∈ heavy_atoms) &&
    (match ppm with
     | none => decide (tierColumn accuracy r = exact_mass)
     | some p =>
       decide (tierColumn accuracy r < exact_mass + exact_mass / 1000000 * p) &&
         decide (exact_mass - exact_mass / 1000000 * p < tierColumn accuracy r))

def select_ecs (table : List SubRow) (exact_mass : ℚ) (heavy_atoms : List ℕ)
    (accuracy : Tier) (ppm : Option ℚ) : List (ℕ × ℕ × ℕ × ℕ × ℕ × ℕ) :=
  ((table.filter (ecsPass exact_mass heavy_atoms accuracy ppm)).map ecOf).dedup

/-- `SubstructureDb.select_sub_structures`, one slot: the distinct `lib`
payloads of rows whose element-composition tuple equals `t`. -/
def q_lib (table : List SubRow) (t : ℕ × ℕ × ℕ × ℕ × ℕ × ℕ) : List ℕ :=
  ((table.filter (fun r => decide (ecOf r = t))).map SubRow.lib).dedup

/-- The loop of `SubstructureDb.select_sub_structures`: `none` models the
early `return []` taken as soon as one tuple has no matching row. -/
def select_sub_structures_go (table : List SubRow) :
    List (ℕ × ℕ × ℕ × ℕ × ℕ × ℕ) → Option (List (List ℕ))
  | [] => some []
  | t :: ts =>
    if q_lib table t = [] then none
    else (select_sub_structures_go table ts).map (fun rest => q_lib table t :: rest)

/-- `SubstructureDb.select_sub_structures`: per input tuple, the list of
deserialized distinct `lib` payloads of matching rows; the empty list if any
tuple matches nothing. -/
def select_sub_structures (table : List SubRow)
    (l_atoms : List (ℕ × ℕ × ℕ × ℕ × ℕ × ℕ)) : List (List ℕ) :=
  (select_sub_structures_go table l_atoms).getD []

/-- The element-count dictionary of `get_elements`: its keys are exactly
`C, H, N, O, P, S` and the wildcard `*`. -/
structure Els where
  C : ℕ
  H : ℕ
  N : ℕ
  O : ℕ
  P : ℕ
  S : ℕ
  star : ℕ
  deriving DecidableEq, Repr

/-- The `sub_smi_dict` record built in the population loops of
`update_substructure_database` (databases.py) and `update_mfrontier_database`
(mfrontier_funcs.py): `length` sums the element counts other than `*`,
`heavy_atoms` those other than `H` and `*`, and the five `exact_mass__*`
fields are `round(exact_mass, 0) .. round(exact_mass, 4)`. -/
def mkSubRow (smiles : String) (exact_mass : ℚ) (els : Els) (valence : ℕ)
    (valence_atoms : String) (atoms_available : ℕ) (lib : ℕ) : SubRow where
  smiles := smiles
  heavy_atoms := els.C + els.N + els.O + els.P + els.S
  length := els.C + els.H + els.N + els.O + els.P + els.S
  exact_mass__1 := pyRound exact_mass 0
  exact_mass__0_1 := pyRound exact_mass 1
  exact_mass__0_01 := pyRound exact_mass 2
  exact_mass__0_001 := pyRound exact_mass 3
  exact_mass__0_0001 := pyRound exact_mass 4
  exact_mass := exact_mass
  count := 0
  C := els.C
  H := els.H
  N := els.N
  O := els.O
  P := els.P
  S := els.S
  valence := valence
  valence_atoms := valence_atoms
  atoms_available := atoms_available
  lib := lib

/-- A well-formed substructure row for mass `180.063`: the glucose-like
composition `C6H12O6` (12 heavy atoms), with the tier columns computed by the
population code. -/
def row180_063 : SubRow :=
  mkSubRow "sub1" (180063/1000) ⟨6, 12, 0, 6, 0, 0, 0⟩ 1 "" 1 1

/-- A well-formed substructure row for mass `180.06`, whose integer-tier
column is `180` while its one-decimal tier column is `180.1`. -/
def row180_06 : SubRow :=
  mkSubRow "sub2" (18006/100) ⟨6, 12, 0, 6, 0, 0, 0⟩ 1 "" 1 2

/-- A compound row with identifier `a` (all other attributes immaterial). -/
def cpdA : CpdRow :=
  ⟨"a", 0, "", 0, 0, 0, 0, 0, 0, "", "", ""⟩

/-- A compound row with identifier `b`. -/
def cpdB : CpdRow :=
  ⟨"b", 0, "", 0, 0, 0, 0, 0, 0, "", "", ""⟩

/-- A compound row whose identifier is the literal string `a, b`. -/
def cpdJoined : CpdRow :=
  ⟨"a, b", 0, "", 0, 0, 0, 0, 0, 0, "", "", ""⟩

/-- A networkx `Graph` as used by `generate_substructure_network`: nodes in
insertion order; undirected edges stored once, in insertion order, with the
orientation of their first insertion and an optional `weight` attribute
(`add_edge(u, v)` without attributes stores no weight). -/
structure NXGraph where
  nodes : List String
  edges : List (String × String × Option ℕ)
  deriving DecidableEq, Repr

/-- networkx `add_node`: appends the node unless already present. -/
def addNode (g : NXGraph) (x : String) : NXGraph :=
  if x ∈ g.nodes then g else ⟨g.nodes ++ [x], g.edges⟩

/-- networkx `has_edge`, symmetric in the two endpoints. -/
def hasEdge (g : NXGraph) (a b : String) : Bool :=
  g.edges.any (fun e => decide ((e.1 = a ∧ e.2.1 = b) ∨ (e.1 = b ∧ e.2.1 = a)))

/-- networkx `add_edge` as exercised by `extended_substructure_network`: both
endpoints are added as nodes; a new edge is appended with the given weight
attribute; an existing edge is left unchanged (the code never re-adds an
existing edge with attributes: the redistribution call is guarded by
`has_edge`). -/
def addEdge (g : NXGraph) (a b : String) (w : Option ℕ) : NXGraph :=
  let g1 := addNode (addNode g a) b
  if hasEdge g1 a b then g1 else ⟨g1.nodes, g1.edges ++ [(a, b, w)]⟩

/-- The `substructure_graph[adj1][adj2]['weight'] += 1` update; an edge
without a `weight` attribute keeps none (in Python that line would raise
`KeyError`; it is reached only behind `has_edge` on edges created with
`weight=1` in the modelled scenarios). -/
def incWeight (g : NXGraph) (a b : String) : NXGraph :=
  ⟨g.nodes, g.edges.map (fun e =>
    if (e.1 = a ∧ e.2.1 = b) ∨ (e.1 = b ∧ e.2.1 = a) then
      (e.1, e.2.1, e.2.2.map (fun n => n + 1))
    else e)⟩

/-- networkx `G.adj[x]` keys: neighbors of `x` in edge-insertion order (a
self-loop contributes `x` itself once). -/
def adjList (g : NXGraph) (x : String) : List String :=
  g.edges.filterMap (fun e =>
    if e.1 = x then some e.2.1 else if e.2.1 = x then some e.1 else none)

/-- networkx `remove_node`: drops the node and every incident edge. -/
def removeNode (g : NXGraph) (x : String) : NXGraph :=
  ⟨g.nodes.filter (fun n => decide (n ≠ x)),
    g.edges.filter (fun e => decide (e.1 ≠ x ∧ e.2.1 ≠ x))⟩

/-- `remove_edges_from(nx.selfloop_edges(...))`. -/
def removeSelfLoops (g : NXGraph) : NXGraph :=
  ⟨g.nodes, g.edges.filter (fun e => decide (e.1 ≠ e.2.1))⟩

/-- The per-parent redistribution loop of `extended_substructure_network`:
for every ordered pair `(adj1, adj2)` of the parent's neighbors, increment
the `adj1`–`adj2` weight or create the edge with weight 1; then remove the
parent node. Iterating the live `G.adj[x]` is faithful to a snapshot since
none of the inner edits touches `x`'s adjacency. -/
def redistributeParent (g : NXGraph) (x : String) : NXGraph :=
  let ns := adjList g x
  removeNode
    (ns.foldl (fun acc a1 =>
      ns.foldl (fun acc2 a2 =>
        if hasEdge acc2 a1 a2 then incWeight acc2 a1 a2 else addEdge acc2 a1 a2 (some 1)) acc) g)
    x

/-- `SubstructureDb.extended_substructure_network`: add a node per parent id,
an (attribute-less) edge per compound-substructure link, and, unless parents
are kept, redistribute and remove each parent, then delete self-loops. -/
def extended_substructure_network (g0 : NXGraph) (unique_hmdb_ids : List String)
    (links : List (String × String)) (include_parents : Bool) : NXGraph :=
  let g1 := unique_hmdb_ids.foldl addNode g0
  let g2 := links.foldl (fun g l => addEdge g l.1 l.2 none) g1
  if include_parents then g2
  else removeSelfLoops (unique_hmdb_ids.foldl redistributeParent g2)

/-- The weight attribute of the `a`–`b` edge: `none` when there is no such
edge, `some none` when the edge carries no weight attribute. -/
def weightOf (g : NXGraph) (a b : String) : Option (Option ℕ) :=
  (g.edges.find? (fun e => decide ((e.1 = a ∧ e.2.1 = b) ∨ (e.1 = b ∧ e.2.1 = a)))).map
    (fun e => e.2.2)

/-- The `C2` scenario: a store whose filtered substructures are `A`, `B`,
`C` (the pre-built substructure nodes) and whose single compound `X` links
to exactly those three, run in extended mode without parent retention. -/
def scenarioC2 : NXGraph :=
  extended_substructure_network ⟨["A", "B", "C"], []⟩ ["X"]
    [("X", "A"), ("X", "B"), ("X", "C")] false

/-- A per-signature group of subgraph-isomorphism mappings, as produced for
one batch: the textual valence signature paired with the mapping entries
(each an edge-identifier sequence). -/
abbrev BatchGroups : Type :=
  List (String × List (List ℕ))

/-- Lookup in an insertion-ordered association list (Python `k in d` /
`d[k]`). -/
def alookup {κ α : Type} [DecidableEq κ] : List (κ × α) → κ → Option α
  | [], _ => none
  | p :: ps, k => if p.1 = k then some p.2 else alookup ps k

/-- Replace the value stored under an existing key. -/
def aupdate {α : Type} (l : List (String × α)) (k : String) (v : α) : List (String × α) :=
  l.map (fun p => if p.1 = k then (p.1, v) else p)

/-- The append loop of `create_isomorphism_database`: each entry of `ms` is
appended to the growing list unless already present (structural equality
against the accumulator, which includes entries appended earlier in the same
loop). -/
def dedupAppend (cur : List (List ℕ)) (ms : List (List ℕ)) : List (List ℕ) :=
  ms.foldl (fun c m => if m ∈ c then c else c ++ [m]) cur

/-- Folding one batch's `graph_info` groups into the per-valence-signature
accumulator `subgraphs`: a signature seen for the first time is assigned the
group wholesale; an existing signature receives only the entries not already
present. -/
def foldBatch (acc : BatchGroups) (gi : BatchGroups) : BatchGroups :=
  gi.foldl (fun a p =>
    match alookup a p.1 with
    | none => a ++ [(p.1, p.2)]
    | some cur => aupdate a p.1 (dedupAppend cur p.2)) acc

/-- The whole streaming merge for one candidate graph: every full 20000
record batch and the final partial batch folded in turn into an initially
empty accumulator. -/
def foldBatches (batches : List BatchGroups) : BatchGroups :=
  batches.foldl foldBatch []

/-- An RDKit atom: only the element symbol is relevant here. -/
structure RAtom where
  symbol : String
  deriving DecidableEq, Repr

/-- An RDKit bond: begin/end atom indices and `GetBondTypeAsDouble()`
(1.0 single, 1.5 aromatic, 2.0 double, ...). -/
structure RBond where
  beginIdx : ℕ
  endIdx : ℕ
  order : ℚ
  deriving DecidableEq, Repr

/-- An RDKit molecule: atoms indexed by position, bonds in index order. -/
structure Mol where
  atoms : List RAtom
  bonds : List RBond
  deriving DecidableEq, Repr

/-- The symbol of atom `i` (empty for an out-of-range index). -/
def symbolAt (m : Mol) (i : ℕ) : String :=
  ((m.atoms[i]?).map RAtom.symbol).getD ""

/-- `GetNeighbors` of atom `i`, in bond-index order. -/
def nbrs (m : Mol) (i : ℕ) : List ℕ :=
  m.bonds.filterMap (fun b =>
    if b.beginIdx = i then some b.endIdx
    else if b.endIdx = i then some b.beginIdx else none)

/-- First loop of `get_substructure`: collect the atoms incident to the
selected bonds, appending each endpoint the first time it is seen (an
out-of-range bond index, on which RDKit would throw, contributes nothing). -/
def atomIdxsSubgraph (mol : Mol) (idxs_edges_subgraph : List ℕ) : List ℕ :=
  idxs_edges_subgraph.foldl (fun acc bIdx =>
    match mol.bonds[bIdx]? with
    | none => acc
    | some b =>
      let acc1 := if b.beginIdx ∈ acc then acc else acc ++ [b.beginIdx]
      if b.endIdx ∈ acc1 then acc1 else acc1 ++ [b.endIdx]) []

/-- Second loop of `get_substructure`: the outside neighbors of the selected
atoms (possibly listed more than once, as in the source). -/
def atomsToDummy (mol : Mol) (sub : List ℕ) : List ℕ :=
  sub.flatMap (fun idx => (nbrs mol idx).filter (fun j => decide (j ∉ sub)))

/-- `ReplaceAtom(idx, Chem.Atom("*"))` over the boundary atoms: index-stable
symbol replacement. -/
def replaceWithDummies (mol : Mol) (toDummy : List ℕ) : Mol :=
  ⟨mol.atoms.mapIdx (fun i a => if i ∈ toDummy then ⟨"*"⟩ else a), mol.bonds⟩

/-- The atom indices surviving the removal loop: selected atoms and wildcard
atoms (in ascending order). -/
def keptIdxs (mol1 : Mol) (sub : List ℕ) : List ℕ :=
  (List.range mol1.atoms.length).filter (fun i => decide (i ∈ sub ∨ symbolAt mol1 i = "*"))

/-- The removal loop of `get_substructure`: every atom neither selected nor a
wildcard is removed (in descending index order, hence equivalently a filter),
incident bonds are dropped and the survivors reindexed consecutively. -/
def removeAtoms (mol1 : Mol) (sub : List ℕ) : Mol :=
  let kept := keptIdxs mol1 sub
  ⟨kept.filterMap (fun i => mol1.atoms[i]?),
    (mol1.bonds.filter (fun b => decide (b.beginIdx ∈ kept ∧ b.endIdx ∈ kept))).map
      (fun b => ⟨kept.indexOf b.beginIdx, kept.indexOf b.endIdx, b.order⟩)⟩

/-- The edit phase of `get_substructure`: dummy replacement followed by
removal of the unselected non-wildcard atoms, producing `mol_out`. -/
def molOutOf (mol : Mol) (idxs_edges_subgraph : List ℕ) : Mol :=
  let sub := atomIdxsSubgraph mol idxs_edges_subgraph
  removeAtoms (replaceWithDummies mol (atomsToDummy mol sub)) sub

/-- The `dummies` list: indices of wildcard atoms, in index order. -/
def dummiesOf (m : Mol) : List ℕ :=
  (List.range m.atoms.length).filter (fun i => decide (symbolAt m i = "*"))

/-- A Python dict used as a counter: add the key with count 1 or increment
its count in place. -/
def bumpList : List (ℕ × ℕ) → ℕ → List (ℕ × ℕ)
  | [], k => [(k, 1)]
  | p :: rest, k => if p.1 = k then (p.1, p.2 + 1) :: rest else p :: bumpList rest k

/-- The `degree_atoms` dict of `get_substructure`: for each wildcard atom (in
index order), each non-wildcard neighbor is counted once per wildcard bond. -/
def degreeAtoms (m : Mol) : List (ℕ × ℕ) :=
  (dummiesOf m).foldl (fun d i =>
    ((nbrs m i).filter (fun j => decide (¬ symbolAt m j = "*"))).foldl bumpList d) []

/-- A Python dict of lists: add the key with a one-element list or append to
the existing list in place. -/
def appendBond : List (ℕ × List ℚ) → ℕ → ℚ → List (ℕ × List ℚ)
  | [], k, q => [(k, [q])]
  | p :: rest, k, q => if p.1 = k then (p.1, p.2 ++ [q]) :: rest else p :: appendBond rest k q

/-- The key under which a bond is recorded in `bond_types`: the other
endpoint of a bond whose begin atom is a wildcard, else the begin atom of a
bond whose end atom is a wildcard (a wildcard–wildcard bond is thus keyed by
its wildcard end atom), else none. -/
def btKeyOf (m : Mol) (b : RBond) : Option ℕ :=
  if symbolAt m b.beginIdx = "*" then some b.endIdx
  else if symbolAt m b.endIdx = "*" then some b.beginIdx else none

/-- One step of the `bond_types` loop of `get_substructure`. -/
def btStep (m : Mol) (bt : List (ℕ × List ℚ)) (b : RBond) : List (ℕ × List ℚ) :=
  match btKeyOf m b with
  | some k => appendBond bt k b.order
  | none => bt

/-- The `bond_types` dict of `get_substructure`: for every bond with a
wildcard endpoint, its bond order is appended under the recorded key. -/
def bondTypes (m : Mol) : List (ℕ × List ℚ) :=
  m.bonds.foldl (btStep m) []

/-- The dictionary returned by `get_substructure`: canonical kekulized
SMILES, the (kekulized) fragment, the bond-type and open-valence dicts, the
total valence, the count of open attachment atoms and the wildcard atoms. -/
structure SubLib where
  smiles : String
  mol : Mol
  bond_types : List (ℕ × List ℚ)
  degree_atoms : List (ℕ × ℕ)
  valence : ℕ
  atoms_available : ℕ
  dummies : List ℕ
  deriving DecidableEq, Repr

/-- `get_substructure`: the edit phase, the valence bookkeeping, then the
kekulization attempt (`kek`, the external `Chem.rdmolops.Kekulize`, returning
`none` on failure); `toSmiles` is the external canonical-SMILES writer.
`None` is returned exactly when kekulization fails. -/
def get_substructure (kek : Mol → Option Mol) (toSmiles : Mol → String)
    (mol : Mol) (idxs_edges_subgraph : List ℕ) : Option SubLib :=
  let molOut := molOutOf mol idxs_edges_subgraph
  match kek molOut with
  | none => none
  | some molKek =>
    some ⟨toSmiles molKek, molKek, bondTypes molOut, degreeAtoms molOut,
      ((degreeAtoms molOut).map Prod.snd).sum, (degreeAtoms molOut).length,
      dummiesOf molOut⟩

/-- Monoisotopic masses of `calculate_exact_mass` (the wildcard entry
`-1.007825` is never summed: the loop skips `*`). -/
def elementMass : String → ℚ
  | "C" => 12
  | "H" => 1007825/1000000
  | "N" => 14003074/1000000
  | "O" => 15994915/1000000
  | "P" => 30973763/1000000
  | "S" => 31972072/1000000
  | _ => 0

/-- `calculate_exact_mass`: hydrogens are materialised by the external
`Chem.AddHs` (`addH`), then every non-wildcard atom contributes its mass. -/
def calculate_exact_mass (addH : Mol → Mol) (mol : Mol) : ℚ :=
  (((addH mol).atoms.filter (fun a => decide (a.symbol ≠ "*"))).map
    (fun a => elementMass a.symbol)).sum

/-- `get_elements`: symbol counts over the hydrogen-materialised molecule. -/
def get_elements (addH : Mol → Mol) (mol : Mol) : Els :=
  let l := (addH mol).atoms
  ⟨(l.filter (fun a => decide (a.symbol = "C"))).length,
    (l.filter (fun a => decide (a.symbol = "H"))).length,
    (l.filter (fun a => decide (a.symbol = "N"))).length,
    (l.filter (fun a => decide (a.symbol = "O"))).length,
    (l.filter (fun a => decide (a.symbol = "P"))).length,
    (l.filter (fun a => decide (a.symbol = "S"))).length,
    (l.filter (fun a => decide (a.symbol = "*"))).length⟩

/-- The substructure row built from one extracted fragment in the population
loop of `update_substructure_database` (`pk` stands for `pickle.dumps`). -/
def rowFromLib (toSmiles : Mol → String) (addH : Mol → Mol) (pk : SubLib → ℕ)
    (lib : SubLib) : SubRow :=
  mkSubRow (toSmiles lib.mol) (calculate_exact_mass addH lib.mol)
    (get_elements addH lib.mol) lib.valence (reprStr lib.degree_atoms)
    lib.atoms_available (pk lib)

/-- `INSERT OR IGNORE INTO substructures`: the row is appended unless its
primary key (the smiles column) is already present. -/
def insertSubRow (db : List SubRow) (r : SubRow) : List SubRow :=
  if db.any (fun x => decide (x.smiles = r.smiles)) then db else db ++ [r]

/-- One iteration of the inner population loop: extract the fragment for one
bond subset; on kekulization failure (`None`) continue without touching the
store, otherwise insert the built row if absent. -/
def processEdgeIdxs (kek : Mol → Option Mol) (toSmiles : Mol → String)
    (addH : Mol → Mol) (pk : SubLib → ℕ) (molParent : Mol)
    (db : List SubRow) (edge_idxs : List ℕ) : List SubRow :=
  match get_substructure kek toSmiles molParent edge_idxs with
  | none => db
  | some fragLib => insertSubRow db (rowFromLib toSmiles addH pk fragLib)

/-- The inner population loop over the bond subsets of one subgraph batch. -/
def processSgs (kek : Mol → Option Mol) (toSmiles : Mol → String)
    (addH : Mol → Mol) (pk : SubLib → ℕ) (molParent : Mol)
    (db : List SubRow) (sgs : List (List ℕ)) : List SubRow :=
  sgs.foldl (processEdgeIdxs kek toSmiles addH pk molParent) db

/-- Per-bond well-formedness of an RDKit molecule: endpoints are in range
and distinct. -/
def MolSimple (m : Mol) : Prop :=
  ∀ b ∈ m.bonds, b.beginIdx < m.atoms.length ∧ b.endIdx < m.atoms.length ∧
    b.beginIdx ≠ b.endIdx

instance decMolSimple (m : Mol) : Decidable (MolSimple m) :=
  List.decidableBAll _ m.bonds

/-- A propane-like parent molecule: three carbons in a chain. -/
def molC3 : Mol :=
  ⟨[⟨"C"⟩, ⟨"C"⟩, ⟨"C"⟩], [⟨0, 1, 1⟩, ⟨1, 2, 1⟩]⟩

/-- The fragment extracted from `molC3` by selecting its first bond: two
carbons plus a wildcard cap, one open attachment of valence 1. -/
def libC3 : SubLib :=
  ⟨"s", ⟨[⟨"C"⟩, ⟨"C"⟩, ⟨"*"⟩], [⟨0, 1, 1⟩, ⟨1, 2, 1⟩]⟩,
    [(1, [1])], [(1, 1)], 1, 1, [2]⟩

/-- The nested-dictionary prefix tree of `create_isomorphism_database`:
children keyed by edge identifier, in insertion order. -/
inductive PTree where
  | node : List (ℕ × PTree) → PTree

/-- One `setdefault(e, ...)` level: apply `f` to the existing child under `e`,
or append the key with `f` applied to a fresh empty dict. -/
def updAssoc (cs : List (ℕ × PTree)) (e : ℕ) (f : PTree → PTree) : List (ℕ × PTree) :=
  match cs with
  | [] => [(e, f (PTree.node []))]
  | c :: rest => if c.1 = e then (c.1, f c.2) :: rest else c :: updAssoc rest e f

/-- The per-mapping insertion of `create_isomorphism_database`:
`parent = root; for e in fr: parent = parent.setdefault(e, dict())`. -/
def insertSeq (t : PTree) : List ℕ → PTree
  | [] => t
  | e :: rest =>
    match t with
    | PTree.node cs => PTree.node (updAssoc cs e (fun c => insertSeq c rest))

mutual
/-- `SubstructureDb.paths`: an empty dict yields the accumulated path, else
every child is traversed in insertion order with its key prefixed. -/
def pathsList : PTree → List (List ℕ)
  | PTree.node [] => [[]]
  | PTree.node (c :: cs) => pathsChildren (c :: cs)

/-- The `for n, s in tree.items()` loop of `SubstructureDb.paths`. -/
def pathsChildren : List (ℕ × PTree) → List (List ℕ)
  | [] => []
  | c :: cs => (pathsList c.2).map (fun p => c.1 :: p) ++ pathsChildren cs
end

/-- Building one signature's prefix tree: every retained mapping is inserted
into an initially empty root. -/
def insertAll (l : List (List ℕ)) : PTree :=
  l.foldl insertSeq (PTree.node [])

/-- Trees produced by inserting equal-length sequences: a depth-`n` uniform
tree is empty at depth 0 and otherwise has a non-empty child list with
distinct keys and uniform subtrees one level shallower. -/
inductive Uniform : ℕ → PTree → Prop
  | zero : Uniform 0 (PTree.node [])
  | succ (n : ℕ) (cs : List (ℕ × PTree)) (hne : cs ≠ [])
      (hkeys : (cs.map Prod.fst).Nodup)
      (hall : ∀ c ∈ cs, Uniform n c.2) : Uniform (n + 1) (PTree.node cs)

end Metaboverse

namespace Metaboverse

theorem ratFloor_eq_floor (q : ℚ) : ratFloor q = ⌊q⌋ := by
  rw [ratFloor, Int.fdiv_eq_ediv _ (by exact_mod_cast q.den_pos.le), Rat.floor_def]

unseal Rat.add Rat.sub Rat.mul Rat.inv in
/-- `C6`: for every substructure record built by the population loops, each of
the five stored mass tier values equals the full-precision exact mass rounded
to that tier's number of decimal places (0 through 4, Python rounding), and
the full-precision column stores the mass itself; for the mass `180.063388`
the tier values are `180.0`, `180.1`, `180.06`, `180.063` and `180.0634`. -/
theorem c6_mass_tier_rounding :
    (∀ smiles m els v va aa pl,
      (mkSubRow smiles m els v va aa pl).exact_mass__1 = pyRound m 0 ∧
      (mkSubRow smiles m els v va aa pl).exact_mass__0_1 = pyRound m 1 ∧
      (mkSubRow smiles m els v va aa pl).exact_mass__0_01 = pyRound m 2 ∧
      (mkSubRow smiles m els v va aa pl).exact_mass__0_001 = pyRound m 3 ∧
      (mkSubRow smiles m els v va aa pl).exact_mass__0_0001 = pyRound m 4 ∧
      (mkSubRow smiles m els v va aa pl).exact_mass = m) ∧
    (pyRound (180063388/1000000 : ℚ) 0 = 180 ∧
      pyRound (180063388/1000000 : ℚ) 1 = 1801/10 ∧
      pyRound (180063388/1000000 : ℚ) 2 = 18006/100 ∧
      pyRound (180063388/1000000 : ℚ) 3 = 180063/1000 ∧
      pyRound (180063388/1000000 : ℚ) 4 = 1800634/10000) := by
  refine ⟨fun smiles m els v va aa pl => ⟨rfl, rfl, rfl, rfl, rfl, rfl⟩, ?_⟩
  decide

/-- `C4` (code bug): `select_compounds` joins the requested ids with `", "`
inside a single pair of SQL quotes, so a multi-id call matches only a
compound whose identifier is literally the joined string: with compounds
`a` and `b` in the store, requesting `["a", "b"]` returns nothing although
both identifiers are members of the list, while a compound whose identifier
is the string `a, b` is returned; a single-id call works as specified. -/
theorem c4_select_compounds_join_literal :
    select_compounds [cpdA, cpdB] ["a", "b"] = [] ∧
    cpdA.hmdbid ∈ ["a", "b"] ∧
    cpdB.hmdbid ∈ ["a", "b"] ∧
    select_compounds [cpdJoined] ["a", "b"] = [cpdJoined] ∧
    cpdJoined.hmdbid ∉ ["a", "b"] ∧
    select_compounds [cpdA, cpdB] ["a"] = [cpdA] ∧
    select_compounds [cpdA, cpdB] [] = [cpdA, cpdB] := by
  decide

unseal Rat.add Rat.sub Rat.mul Rat.inv in
/-- `C1` counterexample: with no ppm tolerance the code compares the stored
tier column against the raw target, not against the tier-rounded target: the
substructure of full mass `180.063` has tier-rounded mass (two decimals)
`180.06`, equal to the tier-rounded target `round(180.063, 2)`, yet
`select_ecs` at target `180.063` returns nothing. -/
theorem c1_counterexample :
    tierColumn Tier.t0_01 row180_063 = pyRound (180063/1000 : ℚ) 2 ∧
    row180_063.heavy_atoms ∈ [12] ∧
    select_ecs [row180_063] (180063/1000) [12] Tier.t0_01 none = [] := by
  decide

/-- `C1` (amended): `select_ecs` with `ppm = none` returns exactly the
distinct composition tuples of substructures whose stored tier value equals
the target exactly as given (not tier-rounded); with a tolerance it returns
exactly those whose tier value lies strictly inside
`target ± target * ppm / 1e6`. -/
theorem c1_select_ecs_characterization (table : List SubRow) (target : ℚ)
    (has : List ℕ) (acc : Tier) (ppm : Option ℚ) :
    (select_ecs table target has acc ppm).Nodup ∧
    ∀ tup, tup ∈ select_ecs table target has acc ppm ↔
      ∃ r ∈ table, ecOf r = tup ∧ r.heavy_atoms ∈ has ∧
        (match ppm with
         | none => tierColumn acc r = target
         | some p => target - target / 1000000 * p < tierColumn acc r ∧
             tierColumn acc r < target + target / 1000000 * p) := by
  refine ⟨List.nodup_dedup _, fun tup => ?_⟩
  cases ppm with
  | none =>
    simp only [select_ecs, ecsPass, List.mem_dedup, List.mem_map, List.mem_filter,
      Bool.and_eq_true, decide_eq_true_eq]
    constructor
    · rintro ⟨r, ⟨hr, hha, ht⟩, he⟩
      exact ⟨r, hr, he, hha, ht⟩
    · rintro ⟨r, hr, he, hha, ht⟩
      exact ⟨r, ⟨hr, hha, ht⟩, he⟩
  | some p =>
    simp only [select_ecs, ecsPass, List.mem_dedup, List.mem_map, List.mem_filter,
      Bool.and_eq_true, decide_eq_true_eq]
    constructor
    · rintro ⟨r, ⟨hr, hha, hlt, hgt⟩, he⟩
      exact ⟨r, hr, he, hha, hgt, hlt⟩
    · rintro ⟨r, hr, he, hha, hgt, hlt⟩
      exact ⟨r, ⟨hr, hha, hlt, hgt⟩, he⟩

unseal Rat.add Rat.sub Rat.mul Rat.inv in
/-- `C5` counterexample: the candidate-mass restriction of
`select_mass_values` is applied to the integer-tier column `exact_mass__1`,
not to the requested tier: a substructure with integer-tier value `180` and
one-decimal tier value `180.1` is returned at accuracy `0_1` for the
candidate list `[180]`, although its one-decimal tier value is not in the
candidate list. -/
theorem c5_counterexample :
    select_mass_values [row180_06] Tier.t0_1 [12] 4 [180] = [1801/10] ∧
    tierColumn Tier.t0_1 row180_06 ∉ [(180 : ℚ)] := by
  decide

/-- `C5` (amended): for a non-empty candidate list, `select_mass_values`
returns the sorted duplicate-free list of requested-tier values over
substructures with valence at most the bound, heavy-atom count in the set,
and integer-tier column (`exact_mass__1`) in the candidate list. -/
theorem c5_select_mass_values_characterization (table : List SubRow) (acc : Tier)
    (has : List ℕ) (mv : ℕ) (masses : List ℚ) (hm : masses ≠ []) :
    (select_mass_values table acc has mv masses).Sorted (fun a b => a ≤ b) ∧
    (select_mass_values table acc has mv masses).Nodup ∧
    ∀ v, v ∈ select_mass_values table acc has mv masses ↔
      ∃ r ∈ table, r.valence ≤ mv ∧ r.heavy_atoms ∈ has ∧ r.exact_mass__1 ∈ masses ∧
        tierColumn acc r = v := by
  have hie : masses.isEmpty = false := by
    cases masses with
    | nil => exact absurd rfl hm
    | cons a l => rfl
  refine ⟨List.sorted_insertionSort _ _, ?_, fun v => ?_⟩
  · exact ((List.perm_insertionSort _ _).symm.nodup_iff).mp (List.nodup_dedup _)
  · rw [select_mass_values, (List.perm_insertionSort _ _).mem_iff]
    simp only [mvPass, hie, List.mem_dedup, List.mem_map, List.mem_filter,
      Bool.and_eq_true, decide_eq_true_eq, Bool.false_eq_true, if_false]
    constructor
    · rintro ⟨r, ⟨hr, ⟨hv, hha⟩, hmass⟩, he⟩
      exact ⟨r, hr, hv, hha, hmass, he⟩
    · rintro ⟨r, hr, hv, hha, hmass, he⟩
      exact ⟨r, ⟨hr, ⟨hv, hha⟩, hmass⟩, he⟩

unseal Rat.add Rat.sub Rat.mul Rat.inv in
/-- Witness for `C5`: at accuracy `0_1`, candidate list `[180]`, the value
`180.1` of the stored row is returned. -/
theorem c5_select_mass_values_characterization_witness :
    (1801/10 : ℚ) ∈ select_mass_values [row180_06] Tier.t0_1 [12] 4 [180] :=
  ((c5_select_mass_values_characterization [row180_06] Tier.t0_1 [12] 4 [180]
      (by decide)).2.2 (1801/10)).mpr
    ⟨row180_06, by decide, by decide, by decide, by decide, by decide⟩

theorem select_sub_structures_go_eq_none (table : List SubRow) :
    ∀ l_atoms, (∃ t ∈ l_atoms, q_lib table t = []) →
      select_sub_structures_go table l_atoms = none := by
  intro l_atoms
  induction l_atoms with
  | nil => rintro ⟨t, ht, _⟩; cases ht
  | cons t ts ih =>
    rintro ⟨u, hu, hq⟩
    rw [select_sub_structures_go]
    rcases List.mem_cons.mp hu with h | h
    · rw [if_pos (h ▸ hq)]
    · by_cases hqt : q_lib table t = []
      · rw [if_pos hqt]
      · rw [if_neg hqt, ih ⟨u, h, hq⟩]
        rfl

theorem select_sub_structures_go_eq_map (table : List SubRow) :
    ∀ l_atoms, (∀ t ∈ l_atoms, q_lib table t ≠ []) →
      select_sub_structures_go table l_atoms = some (l_atoms.map (q_lib table)) := by
  intro l_atoms
  induction l_atoms with
  | nil => intro _; rfl
  | cons t ts ih =>
    intro h
    rw [select_sub_structures_go, if_neg (h t (List.mem_cons_self t ts)),
      ih (fun u hu => h u (List.mem_cons_of_mem t hu))]
    rfl

/-- `C3`: `select_sub_structures` returns the empty list as soon as one of
the requested composition tuples matches no substructure row, and otherwise
one non-empty list of distinct deserialized payloads per input tuple, in
input order. -/
theorem c3_select_sub_structures :
    (∀ (table : List SubRow) (l_atoms : List (ℕ × ℕ × ℕ × ℕ × ℕ × ℕ)),
      (∃ t ∈ l_atoms, q_lib table t = []) →
      select_sub_structures table l_atoms = []) ∧
    (∀ (table : List SubRow) (l_atoms : List (ℕ × ℕ × ℕ × ℕ × ℕ × ℕ)),
      (∀ t ∈ l_atoms, q_lib table t ≠ []) →
      (select_sub_structures table l_atoms).length = l_atoms.length ∧
      ∀ (i : ℕ) (h1 : i < l_atoms.length)
          (h2 : i < (select_sub_structures table l_atoms).length),
        (select_sub_structures table l_atoms).get ⟨i, h2⟩ =
            q_lib table (l_atoms.get ⟨i, h1⟩) ∧
          (select_sub_structures table l_atoms).get ⟨i, h2⟩ ≠ []) := by
  constructor
  · intro table l_atoms h
    rw [select_sub_structures, select_sub_structures_go_eq_none table l_atoms h]
    rfl
  · intro table l_atoms h
    have hgo : select_sub_structures table l_atoms = l_atoms.map (q_lib table) := by
      rw [select_sub_structures, select_sub_structures_go_eq_map table l_atoms h]
      rfl
    refine ⟨by rw [hgo, List.length_map], fun i h1 h2 => ?_⟩
    have hget : (select_sub_structures table l_atoms).get ⟨i, h2⟩ =
        q_lib table (l_atoms.get ⟨i, h1⟩) := by
      simp only [List.get_eq_getElem, hgo, List.getElem_map]
    exact ⟨hget, hget ▸ h _ (l_atoms.get_mem i h1)⟩

/-- Witness for `C3`: a tuple absent from the store makes the whole query
empty, and a present tuple yields one (non-empty) payload list. -/
theorem c3_select_sub_structures_witness :
    select_sub_structures [row180_063] [(0, 0, 0, 0, 0, 0)] = [] ∧
    (select_sub_structures [row180_063] [(6, 12, 0, 6, 0, 0)]).length = 1 :=
  ⟨c3_select_sub_structures.1 [row180_063] [(0, 0, 0, 0, 0, 0)]
      ⟨(0, 0, 0, 0, 0, 0), by decide, by decide⟩,
    (c3_select_sub_structures.2 [row180_063] [(6, 12, 0, 6, 0, 0)] (by decide)).1⟩

/-- `C2` counterexample: in the extended network without parent retention,
the redistribution loop runs over all ordered pairs of the compound's
neighbors, so each unordered pair is visited twice and the `A`–`B` edge ends
with weight 2, not 1. -/
theorem c2_counterexample :
    hasEdge scenarioC2 "A" "B" = true ∧
    weightOf scenarioC2 "A" "B" ≠ some (some 1) := by
  decide

/-- `C2` (amended): extended mode without parent retention on a compound `X`
linked to exactly the filtered substructures `A`, `B`, `C` yields exactly the
edges `A`–`B`, `A`–`C`, `B`–`C`, each with weight 2 (each unordered neighbor
pair is visited once per orientation); node `X` is gone and no self-loop
remains. -/
theorem c2_extended_network_scenario :
    scenarioC2.nodes = ["A", "B", "C"] ∧
    scenarioC2.edges = [("A", "B", some 2), ("A", "C", some 2), ("B", "C", some 2)] ∧
    weightOf scenarioC2 "A" "B" = some (some 2) ∧
    weightOf scenarioC2 "A" "C" = some (some 2) ∧
    weightOf scenarioC2 "B" "C" = some (some 2) ∧
    "X" ∉ scenarioC2.nodes ∧
    scenarioC2.edges.all (fun e => decide (e.1 ≠ e.2.1)) = true := by
  decide

theorem dedupAppend_nodup (ms : List (List ℕ)) :
    ∀ cur : List (List ℕ), cur.Nodup → (dedupAppend cur ms).Nodup := by
  induction ms with
  | nil => intro cur h; exact h
  | cons m ms ih =>
    intro cur h
    have h2 : (if m ∈ cur then cur else cur ++ [m]).Nodup := by
      by_cases hm : m ∈ cur
      · simpa [hm] using h
      · simp [hm, List.nodup_append, h]
    simpa [dedupAppend, List.foldl_cons] using ih _ h2

theorem alookup_mem {κ α : Type} [DecidableEq κ] :
    ∀ (l : List (κ × α)) (k : κ) (v : α),
      alookup l k = some v → (k, v) ∈ l := by
  intro l
  induction l with
  | nil => intro k v h; cases h
  | cons p ps ih =>
    intro k v h
    rw [alookup] at h
    by_cases hk : p.1 = k
    · rw [if_pos hk] at h
      cases h
      exact hk ▸ List.mem_cons_self p ps
    · rw [if_neg hk] at h
      exact List.mem_cons_of_mem _ (ih k v h)

theorem foldBatch_nodup (gi : BatchGroups) :
    ∀ acc : BatchGroups, (∀ p ∈ acc, p.2.Nodup) → (∀ p ∈ gi, p.2.Nodup) →
      ∀ p ∈ foldBatch acc gi, p.2.Nodup := by
  induction gi with
  | nil => intro acc ha _ p hp; exact ha p hp
  | cons q gs ih =>
    intro acc ha hg p hp
    rw [foldBatch, List.foldl_cons] at hp
    refine ih _ ?_ (fun r hr => hg r (List.mem_cons_of_mem _ hr)) p hp
    intro r hr
    cases hl : alookup acc q.1 with
    | none =>
      rw [hl] at hr
      rcases List.mem_append.mp hr with h | h
      · exact ha r h
      · rcases List.mem_singleton.mp h with rfl
        exact hg q (List.mem_cons_self q gs)
    | some cur =>
      rw [hl] at hr
      rcases List.mem_map.mp hr with ⟨p0, hp0, he⟩
      by_cases hk : p0.1 = q.1
      · rw [if_pos hk] at he
        rw [← he]
        exact dedupAppend_nodup q.2 cur (ha (q.1, cur) (alookup_mem acc q.1 cur hl))
      · rw [if_neg hk] at he
        exact he ▸ ha p0 hp0

/-- `C9` counterexample: a per-signature group arriving in the FIRST batch
for its signature is assigned to the accumulator wholesale, duplicates
included, so a batch whose group already contains a mapping twice leaves two
structurally equal entries in the accumulator. -/
theorem c9_counterexample :
    alookup (foldBatches [[("v", [[1], [1]])]]) "v" = some [[1], [1]] ∧
    ¬ ([[1], [1]] : List (List ℕ)).Nodup := by
  decide

/-- `C9` (amended): provided each single batch's per-signature mapping group
is itself duplicate-free, folding any sequence of batches leaves every
per-signature accumulator free of structurally equal duplicates — in
particular a mapping observed in two separate batches is kept only once. -/
theorem c9_fold_nodup (batches : List BatchGroups)
    (h : ∀ b ∈ batches, ∀ p ∈ b, p.2.Nodup) :
    ∀ p ∈ foldBatches batches, p.2.Nodup := by
  rw [foldBatches]
  have H : ∀ (bs : List BatchGroups) (acc : BatchGroups),
      (∀ b ∈ bs, ∀ p ∈ b, p.2.Nodup) → (∀ p ∈ acc, p.2.Nodup) →
      ∀ p ∈ bs.foldl foldBatch acc, p.2.Nodup := by
    intro bs
    induction bs with
    | nil => intro acc _ ha p hp; exact ha p hp
    | cons b bs ih =>
      intro acc hb ha p hp
      rw [List.foldl_cons] at hp
      exact ih _ (fun c hc => hb c (List.mem_cons_of_mem _ hc))
        (foldBatch_nodup b acc ha (hb b (List.mem_cons_self b bs))) p hp
  exact H batches [] h (fun p hp => absurd hp (List.not_mem_nil p))

/-- Witness for `C9`: the mapping `[2]` observed in two separate batches for
signature `v` appears exactly once after the merge, and every accumulator
group is duplicate-free. -/
theorem c9_fold_nodup_witness :
    foldBatches [[("v", [[1], [2]])], [("v", [[2], [3]])]] = [("v", [[1], [2], [3]])] ∧
    ∀ p ∈ foldBatches [[("v", [[1], [2]])], [("v", [[2], [3]])]], p.2.Nodup :=
  ⟨by decide,
    c9_fold_nodup [[("v", [[1], [2]])], [("v", [[2], [3]])]] (by decide)⟩

theorem bumpList_alookup (k j : ℕ) :
    ∀ d : List (ℕ × ℕ),
      alookup (bumpList d k) j =
        if j = k then some ((alookup d j).getD 0 + 1) else alookup d j := by
  intro d
  induction d with
  | nil =>
    by_cases h : j = k
    · simp [bumpList, alookup, h]
    · simp [bumpList, alookup, h, Ne.symm h]
  | cons p rest ih =>
    by_cases hp : p.1 = k
    · by_cases hj : j = k
      · simp [bumpList, alookup, hp, hj, hp.trans hj.symm]
      · have hpj : ¬ p.1 = j := fun e => hj (by rw [← e, hp])
        simp [bumpList, alookup, hp, hj, hpj, Ne.symm hj]
    · by_cases hpj : p.1 = j
      · have hj : ¬ j = k := fun e => hp (hpj.trans e)
        simp [bumpList, alookup, hp, hpj, hj]
      · simp [bumpList, alookup, hp, hpj, ih]

theorem bumpList_keys (k : ℕ) :
    ∀ d : List (ℕ × ℕ),
      (bumpList d k).map Prod.fst =
        if k ∈ d.map Prod.fst then d.map Prod.fst else d.map Prod.fst ++ [k] := by
  intro d
  induction d with
  | nil => simp [bumpList]
  | cons p rest ih =>
    by_cases hp : p.1 = k
    · simp [bumpList, hp]
    · by_cases hk : k ∈ rest.map Prod.fst <;>
        simp [bumpList, hp, ih, hk, Ne.symm hp]

theorem foldl_bumpList_alookup (k : ℕ) :
    ∀ (L : List ℕ) (d : List (ℕ × ℕ)),
      alookup (L.foldl bumpList d) k =
        match alookup d k with
        | some v => some (v + L.count k)
        | none => if k ∈ L then some (L.count k) else none := by
  intro L
  induction L with
  | nil =>
    intro d
    cases h : alookup d k <;> simp [h]
  | cons x L ih =>
    intro d
    rw [List.foldl_cons, ih (bumpList d x), bumpList_alookup x k d]
    by_cases hkx : k = x
    · subst hkx
      cases hdk : alookup d k with
      | none => simp [hdk, List.count_cons]; omega
      | some v => simp [hdk, List.count_cons]; omega
    · cases hdk : alookup d k with
      | none => simp [hdk, hkx, List.count_cons, List.mem_cons]
      | some v => simp [hdk, hkx, List.count_cons]

theorem foldl_bumpList_keys_nodup :
    ∀ (L : List ℕ) (d : List (ℕ × ℕ)),
      (d.map Prod.fst).Nodup → ((L.foldl bumpList d).map Prod.fst).Nodup := by
  intro L
  induction L with
  | nil => intro d h; exact h
  | cons x L ih =>
    intro d h
    rw [List.foldl_cons]
    apply ih
    rw [bumpList_keys]
    by_cases hx : x ∈ d.map Prod.fst
    · simpa [hx] using h
    · simp [hx, List.nodup_append, h]

theorem alookup_of_mem_nodupKeys {κ α : Type} [DecidableEq κ] :
    ∀ l : List (κ × α), (l.map Prod.fst).Nodup →
      ∀ p ∈ l, alookup l p.1 = some p.2 := by
  intro l
  induction l with
  | nil => intro _ p hp; cases hp
  | cons q rest ih =>
    intro h p hp
    rw [List.map_cons, List.nodup_cons] at h
    rcases List.mem_cons.mp hp with rfl | hp2
    · rw [alookup, if_pos rfl]
    · have hq : ¬ q.1 = p.1 := fun e =>
        h.1 (e ▸ List.mem_map.mpr ⟨p, hp2, rfl⟩)
      rw [alookup, if_neg hq]
      exact ih h.2 p hp2

theorem appendBond_alookup (k j : ℕ) (q : ℚ) :
    ∀ d : List (ℕ × List ℚ),
      alookup (appendBond d k q) j =
        if j = k then some ((alookup d j).getD [] ++ [q]) else alookup d j := by
  intro d
  induction d with
  | nil =>
    by_cases h : j = k
    · simp [appendBond, alookup, h]
    · simp [appendBond, alookup, h, Ne.symm h]
  | cons p rest ih =>
    by_cases hp : p.1 = k
    · by_cases hj : j = k
      · simp [appendBond, alookup, hp, hj, hp.trans hj.symm]
      · have hpj : ¬ p.1 = j := fun e => hj (by rw [← e, hp])
        simp [appendBond, alookup, hp, hj, hpj, Ne.symm hj]
    · by_cases hpj : p.1 = j
      · have hj : ¬ j = k := fun e => hp (hpj.trans e)
        simp [appendBond, alookup, hp, hpj, hj]
      · simp [appendBond, alookup, hp, hpj, ih]

theorem foldl_btStep_len (m : Mol) (j : ℕ) :
    ∀ (bs : List RBond) (d : List (ℕ × List ℚ)),
      ((alookup (bs.foldl (btStep m) d) j).getD []).length =
        ((alookup d j).getD []).length +
          bs.countP (fun b => decide (btKeyOf m b = some j)) := by
  intro bs
  induction bs with
  | nil => intro d; simp
  | cons b bs ih =>
    intro d
    rw [List.foldl_cons, ih]
    cases hbk : btKeyOf m b with
    | none => simp [btStep, hbk, List.countP_cons]
    | some k =>
      by_cases hjk : j = k
      · subst hjk
        simp [btStep, hbk, appendBond_alookup, List.countP_cons]
        omega
      · simp [btStep, hbk, appendBond_alookup, hjk, List.countP_cons, Ne.symm hjk]

theorem foldl_flatMap {α β γ : Type} (f : γ → β → γ) (g : α → List β) :
    ∀ (l : List α) (init : γ),
      (l.flatMap g).foldl f init = l.foldl (fun acc x => (g x).foldl f acc) init := by
  intro l
  induction l with
  | nil => intro init; rfl
  | cons x xs ih =>
    intro init
    rw [List.flatMap_cons, List.foldl_append, List.foldl_cons, ih]

theorem count_flatMap {α : Type} (k : ℕ) (g : α → List ℕ) :
    ∀ l : List α, (l.flatMap g).count k = (l.map (fun x => (g x).count k)).sum := by
  intro l
  induction l with
  | nil => simp
  | cons x xs ih => simp [List.flatMap_cons, List.count_append, ih]

theorem count_filter_pos {p : ℕ → Bool} {k : ℕ} (hk : p k = true) :
    ∀ l : List ℕ, (l.filter p).count k = l.count k := by
  intro l
  induction l with
  | nil => rfl
  | cons x xs ih =>
    by_cases hx : p x
    · rw [List.filter_cons_of_pos hx, List.count_cons, List.count_cons, ih]
    · rw [List.filter_cons_of_neg hx, ih, List.count_cons]
      have hkx : ¬ k = x := fun e => hx (e ▸ hk)
      simp [hkx, Ne.symm hkx]

theorem count_filterMap_eq_countP {α : Type} (k : ℕ) (f : α → Option ℕ) :
    ∀ l : List α, (l.filterMap f).count k = l.countP (fun x => decide (f x = some k)) := by
  intro l
  induction l with
  | nil => rfl
  | cons x xs ih =>
    cases hf : f x with
    | none => simp [List.filterMap_cons, hf, List.countP_cons, ih]
    | some y =>
      by_cases hky : k = y
      · subst hky
        simp [List.filterMap_cons, hf, List.count_cons, List.countP_cons, ih]
      · simp [List.filterMap_cons, hf, List.count_cons, List.countP_cons, ih, hky,
          Ne.symm hky]

theorem sum_map_add {α : Type} (f g : α → ℕ) :
    ∀ l : List α, (l.map (fun x => f x + g x)).sum = (l.map f).sum + (l.map g).sum := by
  intro l
  induction l with
  | nil => rfl
  | cons x xs ih => simp [ih]; omega

theorem sum_map_ite_one {α : Type} (q : α → Bool) :
    ∀ l : List α, (l.map (fun x => if q x then 1 else 0)).sum = l.countP q := by
  intro l
  induction l with
  | nil => rfl
  | cons x xs ih =>
    by_cases hx : q x
    · simp [List.countP_cons, hx, ih]
      omega
    · simp [List.countP_cons, hx, ih]

theorem sum_countP_swap (p : ℕ → RBond → Bool) :
    ∀ (D : List ℕ) (bs : List RBond),
      (D.map (fun i => bs.countP (p i))).sum =
        (bs.map (fun b => D.countP (fun i => p i b))).sum := by
  intro D
  induction D with
  | nil => intro bs; simp
  | cons i D ih =>
    intro bs
    rw [List.map_cons, List.sum_cons, ih]
    have hcons : (bs.map (fun b => (i :: D).countP (fun i2 => p i2 b))) =
        bs.map (fun b => D.countP (fun i2 => p i2 b) + if p i b then 1 else 0) :=
      List.map_congr_left (fun b _ => List.countP_cons _ _ _)
    rw [hcons, sum_map_add, sum_map_ite_one]
    omega

theorem mem_dummiesOf (m : Mol) (i : ℕ) :
    i ∈ dummiesOf m ↔ i < m.atoms.length ∧ symbolAt m i = "*" := by
  simp [dummiesOf, List.mem_filter, List.mem_range]

theorem nodup_dummiesOf (m : Mol) : (dummiesOf m).Nodup :=
  (List.nodup_range _).filter _

theorem countP_eq_single {d : List ℕ} (hd : d.Nodup) {a : ℕ} (ha : a ∈ d)
    {p : ℕ → Bool} (hp : ∀ i, p i = true ↔ i = a) : d.countP p = 1 := by
  induction d with
  | nil => cases ha
  | cons x xs ih =>
    rw [List.countP_cons]
    rw [List.nodup_cons] at hd
    rcases List.mem_cons.mp ha with rfl | hxs
    · have h0 : xs.countP p = 0 := List.countP_eq_zero.mpr (fun i hi hpi =>
        hd.1 ((hp i).mp hpi ▸ hi))
      simp [h0, (hp a).mpr rfl]
    · have hx : ¬ p x = true := fun e => hd.1 ((hp x).mp e ▸ hxs)
      simp [hx, ih hd.2 hxs]

theorem countP_dummies_nbr (m : Mol) (b : RBond) (k : ℕ)
    (hb1 : b.beginIdx < m.atoms.length) (hb2 : b.endIdx < m.atoms.length)
    (hne : b.beginIdx ≠ b.endIdx) (hk : ¬ symbolAt m k = "*") :
    (dummiesOf m).countP (fun i =>
        decide ((if b.beginIdx = i then some b.endIdx
          else if b.endIdx = i then some b.beginIdx else none) = some k)) =
      if btKeyOf m b = some k then 1 else 0 := by
  by_cases hsb : symbolAt m b.beginIdx = "*"
  · have hbt : btKeyOf m b = some b.endIdx := by rw [btKeyOf, if_pos hsb]
    have hbk : ¬ b.beginIdx = k := fun e => hk (e ▸ hsb)
    rw [hbt]
    by_cases hek : b.endIdx = k
    · rw [if_pos (by rw [hek])]
      refine countP_eq_single (nodup_dummiesOf m)
        ((mem_dummiesOf m _).mpr ⟨hb1, hsb⟩) (fun i => ?_)
      simp only [decide_eq_true_eq]
      constructor
      · intro h
        by_cases h1 : b.beginIdx = i
        · exact h1.symm
        · rw [if_neg h1] at h
          by_cases h2 : b.endIdx = i
          · rw [if_pos h2] at h
            exact absurd (Option.some.inj h) hbk
          · rw [if_neg h2] at h
            cases h
      · intro h
        rw [if_pos h.symm, hek]
    · rw [if_neg (fun e => hek (Option.some.inj e))]
      refine List.countP_eq_zero.mpr (fun i hi => ?_)
      simp only [decide_eq_true_eq]
      intro h
      by_cases h1 : b.beginIdx = i
      · rw [if_pos h1] at h
        exact hek (Option.some.inj h)
      · rw [if_neg h1] at h
        by_cases h2 : b.endIdx = i
        · rw [if_pos h2] at h
          exact hbk (Option.some.inj h)
        · rw [if_neg h2] at h
          cases h
  · by_cases hse : symbolAt m b.endIdx = "*"
    · have hbt : btKeyOf m b = some b.beginIdx := by
        rw [btKeyOf, if_neg hsb, if_pos hse]
      have hek : ¬ b.endIdx = k := fun e => hk (e ▸ hse)
      rw [hbt]
      by_cases hbk : b.beginIdx = k
      · rw [if_pos (by rw [hbk])]
        refine countP_eq_single (nodup_dummiesOf m)
          ((mem_dummiesOf m _).mpr ⟨hb2, hse⟩) (fun i => ?_)
        simp only [decide_eq_true_eq]
        constructor
        · intro h
          by_cases h1 : b.beginIdx = i
          · rw [if_pos h1] at h
            exact absurd (Option.some.inj h) hek
          · rw [if_neg h1] at h
            by_cases h2 : b.endIdx = i
            · exact h2.symm
            · rw [if_neg h2] at h
              cases h
        · intro h
          have h1 : ¬ b.beginIdx = i := fun e => hne (by rw [e, h])
          rw [if_neg h1, if_pos h.symm, hbk]
      · rw [if_neg (fun e => hbk (Option.some.inj e))]
        refine List.countP_eq_zero.mpr (fun i hi => ?_)
        simp only [decide_eq_true_eq]
        intro h
        by_cases h1 : b.beginIdx = i
        · rw [if_pos h1] at h
          exact hek (Option.some.inj h)
        · rw [if_neg h1] at h
          by_cases h2 : b.endIdx = i
          · rw [if_pos h2] at h
            exact hbk (Option.some.inj h)
          · rw [if_neg h2] at h
            cases h
    · have hbt : btKeyOf m b = none := by rw [btKeyOf, if_neg hsb, if_neg hse]
      rw [hbt, if_neg (fun e => Option.noConfusion e)]
      refine List.countP_eq_zero.mpr (fun i hi => ?_)
      have hstar : symbolAt m i = "*" := ((mem_dummiesOf m i).mp hi).2
      have h1 : ¬ b.beginIdx = i := fun e => hsb (by rw [e, hstar])
      have h2 : ¬ b.endIdx = i := fun e => hse (by rw [e, hstar])
      simp [h1, h2]

theorem sum_map_ite_prop {α : Type} (p : α → Prop) [DecidablePred p] :
    ∀ l : List α, (l.map (fun x => if p x then 1 else 0)).sum =
      l.countP (fun x => decide (p x)) := by
  intro l
  induction l with
  | nil => rfl
  | cons x xs ih =>
    by_cases hx : p x
    · simp [List.countP_cons, hx, ih]
      omega
    · simp [List.countP_cons, hx, ih]

theorem degreeAtoms_eq_flat (m : Mol) :
    degreeAtoms m =
      ((dummiesOf m).flatMap (fun i =>
        (nbrs m i).filter (fun j => decide (¬ symbolAt m j = "*")))).foldl bumpList [] := by
  rw [degreeAtoms, foldl_flatMap]

/-- The heart of `C7`: on any per-bond well-formed molecule, the total open
valence (the sum of the `degree_atoms` counters) equals the sum, over the
open-attachment atoms, of the number of bond orders recorded for that atom in
`bond_types`. -/
theorem valence_eq_bond_type_lengths (m : Mol) (hwf : MolSimple m) :
    ((degreeAtoms m).map Prod.snd).sum =
      ((degreeAtoms m).map (fun p => ((alookup (bondTypes m) p.1).getD []).length)).sum := by
  have hkeys : ((degreeAtoms m).map Prod.fst).Nodup := by
    rw [degreeAtoms_eq_flat]
    exact foldl_bumpList_keys_nodup _ [] (by simp)
  refine congrArg List.sum (List.map_congr_left (fun p hp => ?_))
  show p.2 = ((alookup (bondTypes m) p.1).getD []).length
  have hlk : alookup (degreeAtoms m) p.1 = some p.2 :=
    alookup_of_mem_nodupKeys _ hkeys p hp
  rw [degreeAtoms_eq_flat, foldl_bumpList_alookup] at hlk
  simp only [alookup] at hlk
  by_cases hmem : p.1 ∈ (dummiesOf m).flatMap (fun i =>
      (nbrs m i).filter (fun j => decide (¬ symbolAt m j = "*")))
  · rw [if_pos hmem] at hlk
    have hval : p.2 = ((dummiesOf m).flatMap (fun i =>
        (nbrs m i).filter (fun j => decide (¬ symbolAt m j = "*")))).count p.1 :=
      (Option.some.inj hlk).symm
    have hstar : ¬ symbolAt m p.1 = "*" := by
      rcases List.mem_flatMap.mp hmem with ⟨i, _, hmem2⟩
      simpa using (List.mem_filter.mp hmem2).2
    have hcount : ((dummiesOf m).flatMap (fun i =>
        (nbrs m i).filter (fun j => decide (¬ symbolAt m j = "*")))).count p.1 =
        m.bonds.countP (fun b => decide (btKeyOf m b = some p.1)) := by
      rw [count_flatMap]
      have h1 : ((dummiesOf m).map (fun i =>
          ((nbrs m i).filter (fun j => decide (¬ symbolAt m j = "*"))).count p.1)) =
          (dummiesOf m).map (fun i => m.bonds.countP (fun b =>
            decide ((if b.beginIdx = i then some b.endIdx
              else if b.endIdx = i then some b.beginIdx else none) = some p.1))) :=
        List.map_congr_left (fun i _ => by
          rw [count_filter_pos (decide_eq_true hstar), nbrs, count_filterMap_eq_countP])
      rw [h1, sum_countP_swap]
      have h2 : (m.bonds.map (fun b => (dummiesOf m).countP (fun i =>
          decide ((if b.beginIdx = i then some b.endIdx
            else if b.endIdx = i then some b.beginIdx else none) = some p.1)))) =
          m.bonds.map (fun b => if btKeyOf m b = some p.1 then 1 else 0) :=
        List.map_congr_left (fun b hb =>
          countP_dummies_nbr m b p.1 (hwf b hb).1 (hwf b hb).2.1 (hwf b hb).2.2 hstar)
      rw [h2, sum_map_ite_prop]
    have hbt : ((alookup (bondTypes m) p.1).getD []).length =
        m.bonds.countP (fun b => decide (btKeyOf m b = some p.1)) := by
      rw [bondTypes, foldl_btStep_len]
      simp [alookup]
    rw [hval, hcount, hbt]
  · rw [if_neg hmem] at hlk
    cases hlk

/-- `C7`: for every substructure record produced by fragment extraction and
inserted into the store, the stored heavy-atom count equals the sum of the
stored non-hydrogen, non-wildcard element counts, and the stored valence
equals the sum over open-attachment atoms of the number of bond orders
recorded for that atom (one per wildcard bond; wildcard–wildcard bonds are
keyed by a wildcard atom and hence excluded from that sum). -/
theorem c7_substructure_invariants (kek : Mol → Option Mol) (toSmiles : Mol → String)
    (addH : Mol → Mol) (pk : SubLib → ℕ) (mol : Mol) (es : List ℕ) (fragLib : SubLib)
    (hsome : get_substructure kek toSmiles mol es = some fragLib)
    (hwf : MolSimple (molOutOf mol es)) :
    (rowFromLib toSmiles addH pk fragLib).heavy_atoms =
        (rowFromLib toSmiles addH pk fragLib).C + (rowFromLib toSmiles addH pk fragLib).N +
          (rowFromLib toSmiles addH pk fragLib).O + (rowFromLib toSmiles addH pk fragLib).P +
          (rowFromLib toSmiles addH pk fragLib).S ∧
    (rowFromLib toSmiles addH pk fragLib).valence = fragLib.valence ∧
    fragLib.valence = (fragLib.degree_atoms.map
      (fun p => ((alookup fragLib.bond_types p.1).getD []).length)).sum := by
  refine ⟨rfl, rfl, ?_⟩
  cases hkek : kek (molOutOf mol es) with
  | none =>
    simp only [get_substructure, hkek] at hsome
    cases hsome
  | some molKek =>
    simp only [get_substructure, hkek] at hsome
    rw [← Option.some.inj hsome]
    exact valence_eq_bond_type_lengths (molOutOf mol es) hwf

/-- Witness for `C7`: the fragment cut from propane by selecting its first
bond has one open attachment atom with a single recorded bond order, and its
stored valence is that count. -/
theorem c7_substructure_invariants_witness :
    (rowFromLib (fun _ => "s") (fun m2 => m2) (fun _ => 1) libC3).valence = libC3.valence ∧
    libC3.valence = (libC3.degree_atoms.map
      (fun p => ((alookup libC3.bond_types p.1).getD []).length)).sum :=
  ⟨(c7_substructure_invariants (fun m2 => some m2) (fun _ => "s") (fun m2 => m2) (fun _ => 1)
      molC3 [0] libC3 (by decide) (by decide)).2.1,
    (c7_substructure_invariants (fun m2 => some m2) (fun _ => "s") (fun m2 => m2) (fun _ => 1)
      molC3 [0] libC3 (by decide) (by decide)).2.2⟩

/-- `C8`: when kekulization of the extracted fragment fails,
`get_substructure` returns `None` rather than raising, the population loop
leaves the store untouched for that bond subset, and the loop over a batch
with the failing subset removed produces the same store — the failing subset
is skipped and the remaining subsets are still processed. -/
theorem c8_kekulize_failure_skips (kek : Mol → Option Mol) (toSmiles : Mol → String)
    (addH : Mol → Mol) (pk : SubLib → ℕ) (mol : Mol) (es : List ℕ)
    (db : List SubRow) (xs ys : List (List ℕ))
    (h : kek (molOutOf mol es) = none) :
    get_substructure kek toSmiles mol es = none ∧
    processEdgeIdxs kek toSmiles addH pk mol db es = db ∧
    processSgs kek toSmiles addH pk mol db (xs ++ es :: ys) =
      processSgs kek toSmiles addH pk mol db (xs ++ ys) := by
  have h1 : get_substructure kek toSmiles mol es = none := by
    simp only [get_substructure, h]
  have h2 : ∀ d : List SubRow, processEdgeIdxs kek toSmiles addH pk mol d es = d := by
    intro d
    simp only [processEdgeIdxs, h1]
  refine ⟨h1, h2 db, ?_⟩
  rw [processSgs, processSgs, List.foldl_append, List.foldl_append, List.foldl_cons, h2]

/-- Witness for `C8`: with an always-failing kekulization, extraction of the
propane fragment yields nothing, the store is unchanged, and the batch with
the failing subset removed yields the same store. -/
theorem c8_kekulize_failure_skips_witness :
    get_substructure (fun _ => none) (fun _ => "s") molC3 [0] = none ∧
    processEdgeIdxs (fun _ => none) (fun _ => "s") (fun m2 => m2) (fun _ => 1)
      molC3 [] [0] = [] ∧
    processSgs (fun _ => none) (fun _ => "s") (fun m2 => m2) (fun _ => 1)
        molC3 [] ([[1]] ++ [0] :: []) =
      processSgs (fun _ => none) (fun _ => "s") (fun m2 => m2) (fun _ => 1)
        molC3 [] ([[1]] ++ []) :=
  c8_kekulize_failure_skips (fun _ => none) (fun _ => "s") (fun m2 => m2) (fun _ => 1)
    molC3 [0] [] [[1]] [] rfl

theorem pathsChildren_append (l1 l2 : List (ℕ × PTree)) :
    pathsChildren (l1 ++ l2) = pathsChildren l1 ++ pathsChildren l2 := by
  induction l1 with
  | nil => rfl
  | cons c cs ih => simp [pathsChildren, ih]

theorem mem_pathsChildren (s : List ℕ) :
    ∀ cs : List (ℕ × PTree),
      s ∈ pathsChildren cs ↔ ∃ c ∈ cs, ∃ p, p ∈ pathsList c.2 ∧ s = c.1 :: p := by
  intro cs
  induction cs with
  | nil => simp [pathsChildren]
  | cons c cs ih =>
    simp only [pathsChildren, List.mem_append, List.mem_map, ih, List.mem_cons]
    constructor
    · rintro (⟨p, hp, rfl⟩ | ⟨c2, hc2, p, hp, rfl⟩)
      · exact ⟨c, Or.inl rfl, p, hp, rfl⟩
      · exact ⟨c2, Or.inr hc2, p, hp, rfl⟩
    · rintro ⟨c2, rfl | hc2, p, hp, rfl⟩
      · exact Or.inl ⟨p, hp, rfl⟩
      · exact Or.inr ⟨c2, hc2, p, hp, rfl⟩

theorem pathsList_node_ne :
    ∀ cs : List (ℕ × PTree), cs ≠ [] → pathsList (PTree.node cs) = pathsChildren cs := by
  intro cs h
  cases cs with
  | nil => exact absurd rfl h
  | cons c cs => rfl

theorem pathsList_insert_empty : ∀ w : List ℕ,
    pathsList (insertSeq (PTree.node []) w) = [w] := by
  intro w
  induction w with
  | nil => rfl
  | cons e rest ih =>
    show pathsList (PTree.node [(e, insertSeq (PTree.node []) rest)]) = _
    rw [pathsList_node_ne _ (by simp), pathsChildren, pathsChildren, ih]
    rfl

theorem uniform_insert_empty : ∀ w : List ℕ,
    Uniform w.length (insertSeq (PTree.node []) w) := by
  intro w
  induction w with
  | nil => exact Uniform.zero
  | cons e rest ih =>
    show Uniform (rest.length + 1) (PTree.node [(e, insertSeq (PTree.node []) rest)])
    refine Uniform.succ _ _ (by simp) (by simp) (fun c hc => ?_)
    rcases List.mem_singleton.mp hc with rfl
    exact ih

theorem updAssoc_not_mem (e : ℕ) (f : PTree → PTree) :
    ∀ cs : List (ℕ × PTree), e ∉ cs.map Prod.fst →
      updAssoc cs e f = cs ++ [(e, f (PTree.node []))] := by
  intro cs
  induction cs with
  | nil => intro _; rfl
  | cons c cs ih =>
    intro h
    rw [List.map_cons] at h
    have h1 : ¬ c.1 = e := fun e2 => h (e2 ▸ List.mem_cons_self _ _)
    rw [updAssoc, if_neg h1, ih (fun h2 => h (List.mem_cons_of_mem _ h2)), List.cons_append]

theorem updAssoc_mem (e : ℕ) (f : PTree → PTree) :
    ∀ cs : List (ℕ × PTree), e ∈ cs.map Prod.fst →
      ∃ pre c0 post, cs = pre ++ c0 :: post ∧ c0.1 = e ∧
        updAssoc cs e f = pre ++ (c0.1, f c0.2) :: post := by
  intro cs
  induction cs with
  | nil => intro h; simp at h
  | cons c cs ih =>
    intro h
    by_cases h1 : c.1 = e
    · exact ⟨[], c, cs, rfl, h1, by rw [updAssoc, if_pos h1]; rfl⟩
    · have h2 : e ∈ cs.map Prod.fst := by
        rw [List.map_cons, List.mem_cons] at h
        rcases h with h | h
        · exact absurd h.symm h1
        · exact h
      rcases ih h2 with ⟨pre, c0, post, hcs, hc0, hupd⟩
      refine ⟨c :: pre, c0, post, by rw [hcs, List.cons_append], hc0, ?_⟩
      rw [updAssoc, if_neg h1, hupd, List.cons_append]

theorem uniform_insertSeq : ∀ (w : List ℕ) (n : ℕ) (t : PTree),
    Uniform n t → w.length = n → Uniform n (insertSeq t w) := by
  intro w
  induction w with
  | nil => intro n t hu _; exact hu
  | cons e rest ih =>
    intro n t hu hlen
    cases hu with
    | zero => cases hlen
    | succ m cs hne hkeys hall =>
      have hm : rest.length = m := Nat.succ.inj hlen
      show Uniform (m + 1) (PTree.node (updAssoc cs e (fun c => insertSeq c rest)))
      by_cases hmem : e ∈ cs.map Prod.fst
      · rcases updAssoc_mem e _ cs hmem with ⟨pre, c0, post, hcs, hc0, hupd⟩
        rw [hupd]
        refine Uniform.succ m _ (by simp) ?_ ?_
        · have hk : ((pre ++ (c0.1, insertSeq c0.2 rest) :: post).map Prod.fst) =
              cs.map Prod.fst := by
            rw [hcs]
            simp
          rw [hk]
          exact hkeys
        · intro c hc
          rcases List.mem_append.mp hc with h | h
          · exact hall c (by rw [hcs]; exact List.mem_append_left _ h)
          · rcases List.mem_cons.mp h with rfl | h
            · exact ih m c0.2
                (hall c0 (by rw [hcs]; exact List.mem_append_right _ (List.mem_cons_self _ _)))
                hm
            · exact hall c (by rw [hcs]; exact List.mem_append_right _ (List.mem_cons_of_mem _ h))
      · rw [updAssoc_not_mem e _ cs hmem]
        refine Uniform.succ m _ (by simp) ?_ ?_
        · rw [List.map_append]
          simp [List.nodup_append, hkeys, hmem]
        · intro c hc
          rcases List.mem_append.mp hc with h | h
          · exact hall c h
          · rcases List.mem_singleton.mp h with rfl
            exact hm ▸ uniform_insert_empty rest

theorem mem_paths_insertSeq : ∀ (w : List ℕ) (n : ℕ) (t : PTree),
    Uniform n t → w.length = n →
      ∀ s, s ∈ pathsList (insertSeq t w) ↔ s ∈ pathsList t ∨ s = w := by
  intro w
  induction w with
  | nil =>
    intro n t hu hlen s
    cases hu with
    | zero =>
      constructor
      · exact Or.inl
      · rintro (h | rfl)
        · exact h
        · show ([] : List ℕ) ∈ pathsList (PTree.node [])
          rw [show pathsList (PTree.node []) = [[]] from rfl]
          exact List.mem_singleton.mpr rfl
    | succ m cs hne hkeys hall => cases hlen
  | cons e rest ih =>
    intro n t hu hlen s
    cases hu with
    | zero => cases hlen
    | succ m cs hne hkeys hall =>
      have hm : rest.length = m := Nat.succ.inj hlen
      show s ∈ pathsList (PTree.node (updAssoc cs e (fun c => insertSeq c rest))) ↔ _
      by_cases hmem : e ∈ cs.map Prod.fst
      · rcases updAssoc_mem e _ cs hmem with ⟨pre, c0, post, hcs, hc0, hupd⟩
        have hchild : ∀ p, p ∈ pathsList (insertSeq c0.2 rest) ↔
            p ∈ pathsList c0.2 ∨ p = rest :=
          ih m c0.2
            (hall c0 (by rw [hcs]; exact List.mem_append_right _ (List.mem_cons_self _ _)))
            hm
        rw [hupd, pathsList_node_ne _ (by simp), pathsChildren_append, pathsChildren,
          pathsList_node_ne _ hne, hcs, pathsChildren_append, pathsChildren]
        simp only [List.mem_append, List.mem_map, hchild, hc0, or_and_right, exists_or,
          exists_eq_left]
        constructor
        · rintro (h | (⟨p, hp, rfl⟩ | rfl) | h)
          · exact Or.inl (Or.inl h)
          · exact Or.inl (Or.inr (Or.inl ⟨p, hp, rfl⟩))
          · exact Or.inr rfl
          · exact Or.inl (Or.inr (Or.inr h))
        · rintro ((h | ⟨p, hp, rfl⟩ | h) | rfl)
          · exact Or.inl h
          · exact Or.inr (Or.inl (Or.inl ⟨p, hp, rfl⟩))
          · exact Or.inr (Or.inr h)
          · exact Or.inr (Or.inl (Or.inr rfl))
      · rw [updAssoc_not_mem e _ cs hmem, pathsList_node_ne _ (by simp),
          pathsChildren_append, pathsChildren, pathsChildren, pathsList_insert_empty,
          pathsList_node_ne _ hne]
        simp [List.mem_append]

theorem pathsChildren_nodup :
    ∀ cs : List (ℕ × PTree), (cs.map Prod.fst).Nodup →
      (∀ c ∈ cs, (pathsList c.2).Nodup) → (pathsChildren cs).Nodup := by
  intro cs
  induction cs with
  | nil => intro _ _; exact List.nodup_nil
  | cons c cs ih =>
    intro hkeys hch
    rw [List.map_cons, List.nodup_cons] at hkeys
    show ((pathsList c.2).map (fun p => c.1 :: p) ++ pathsChildren cs).Nodup
    rw [List.nodup_append]
    refine ⟨?_, ih hkeys.2 (fun c2 hc2 => hch c2 (List.mem_cons_of_mem _ hc2)), ?_⟩
    · exact (hch c (List.mem_cons_self _ _)).map (fun p q h => (List.cons.injEq _ _ _ _ ▸ h).2)
    · intro s hs hs2
      rcases List.mem_map.mp hs with ⟨p, _, rfl⟩
      rcases (mem_pathsChildren _ cs).mp hs2 with ⟨c2, hc2, p2, _, he⟩
      have : c.1 = c2.1 := (List.cons.injEq _ _ _ _ ▸ he).1
      exact hkeys.1 (this ▸ List.mem_map.mpr ⟨c2, hc2, rfl⟩)

theorem uniform_paths_nodup : ∀ (n : ℕ) (t : PTree),
    Uniform n t → (pathsList t).Nodup := by
  intro n t hu
  induction hu with
  | zero => exact List.nodup_singleton _
  | succ m cs hne hkeys hall ih =>
    rw [pathsList_node_ne _ hne]
    exact pathsChildren_nodup cs hkeys ih

theorem foldl_insertSeq_spec : ∀ (ws : List (List ℕ)) (n : ℕ) (t : PTree),
    Uniform n t → (∀ s ∈ ws, s.length = n) →
      Uniform n (ws.foldl insertSeq t) ∧
      (∀ s, s ∈ pathsList (ws.foldl insertSeq t) ↔ s ∈ pathsList t ∨ s ∈ ws) := by
  intro ws
  induction ws with
  | nil =>
    intro n t hu _
    exact ⟨hu, fun s => by simp⟩
  | cons a ws ih =>
    intro n t hu hlen
    have hu2 := uniform_insertSeq a n t hu (hlen a (List.mem_cons_self _ _))
    rcases ih n (insertSeq t a) hu2 (fun s hs => hlen s (List.mem_cons_of_mem _ hs)) with
      ⟨h1, h2⟩
    refine ⟨h1, fun s => ?_⟩
    rw [List.foldl_cons, h2 s,
      mem_paths_insertSeq a n t hu (hlen a (List.mem_cons_self _ _)) s, List.mem_cons]
    tauto

/-- `C10` counterexample: for the empty set of sequences, inserting nothing
leaves the empty tree, whose enumeration is the single empty path — a path
that is not one of the (zero) sequences of the set. -/
theorem c10_counterexample :
    pathsList (insertAll []) = [[]] ∧ ¬ [] ∈ ([] : List (List ℕ)) :=
  ⟨rfl, by simp⟩

/-- `C10` (amended): for every NON-EMPTY finite set of equal-length,
non-empty edge-identifier sequences, inserting each sequence into the
nested-dictionary prefix tree and enumerating with `paths` yields exactly the
distinct sequences of the set, each exactly once; and `paths` on the empty
tree yields exactly one path, the empty tuple. -/
theorem c10_paths_insertAll (L : List (List ℕ)) (n : ℕ) (hne : L ≠ [])
    (hlen : ∀ s ∈ L, s.length = n) (hpos : ∀ s ∈ L, s ≠ []) :
    ((pathsList (insertAll L)).Nodup ∧ ∀ s, s ∈ pathsList (insertAll L) ↔ s ∈ L) ∧
    pathsList (PTree.node []) = [[]] := by
  cases L with
  | nil => exact absurd rfl hne
  | cons a ws =>
    have hu : Uniform n (insertSeq (PTree.node []) a) := by
      rw [← hlen a (List.mem_cons_self _ _)]
      exact uniform_insert_empty a
    rcases foldl_insertSeq_spec ws n _ hu (fun s hs => hlen s (List.mem_cons_of_mem _ hs))
      with ⟨h1, h2⟩
    refine ⟨⟨uniform_paths_nodup n _ h1, fun s => ?_⟩, rfl⟩
    rw [show insertAll (a :: ws) = ws.foldl insertSeq (insertSeq (PTree.node []) a) from rfl,
      h2 s, pathsList_insert_empty, List.mem_cons]
    simp

/-- Witness for `C10`: three insertions with one duplicate yield exactly the
two distinct sequences, each once. -/
theorem c10_paths_insertAll_witness :
    pathsList (insertAll [[1, 2], [1, 3], [1, 2]]) = [[1, 2], [1, 3]] ∧
    (pathsList (insertAll [[1, 2], [1, 3], [1, 2]])).Nodup ∧
    ([1, 2] ∈ pathsList (insertAll [[1, 2], [1, 3], [1, 2]]) ↔
      [1, 2] ∈ [[1, 2], [1, 3], [1, 2]]) :=
  ⟨rfl,
    (c10_paths_insertAll [[1, 2], [1, 3], [1, 2]] 2 (by decide) (by decide) (by decide)).1.1,
    (c10_paths_insertAll [[1, 2], [1, 3], [1, 2]] 2 (by decide) (by decide) (by decide)).1.2
      [1, 2]⟩

end Metaboverse
